import Mathlib

/-!
Verification of the text-processing and scraping pipeline of the
berlin-gesetze-chatbot repository.

Strings are modelled as `List Char`.  `pySpace` models the whitespace
class used by Python's `re` module and `str.split`/`str.strip` on the
ASCII whitespace characters (space, tab, newline, carriage return,
vertical tab, form feed); all inputs of interest are covered by this set.
-/

namespace Gesetze

/-- Whitespace test, modelling Python's `\s` class / `str.isspace` on
ASCII characters. -/
def pySpace (c : Char) : Bool :=
  c = ' ' || c = '\t' || c = '\n' || c = '\r' || c = '\x0b' || c = '\x0c'

/-- One pass of `re.sub(r'\s+', ' ', text)`: every maximal run of
whitespace characters is replaced by a single space.  The flag records
whether the previously scanned character belonged to a whitespace run
(so that only the first character of a run emits the space). -/
def collapseWS : Bool → List Char → List Char
  | _, [] => []
  | prev, c :: rest =>
    if pySpace c then
      if prev then collapseWS true rest else ' ' :: collapseWS true rest
    else c :: collapseWS false rest

/-- Length of the text consumed by the `\s*\n` part of a greedy match of
`re` pattern `\n\s*\n` (the leading `\n` already consumed): among the
maximal whitespace prefix of the list, the position just after the last
newline, if any newline occurs in that prefix. -/
def matchLen : List Char → Option Nat
  | [] => none
  | c :: rest =>
    if pySpace c then
      match matchLen rest with
      | some k => some (k + 1)
      | none => if c = '\n' then some 1 else none
    else none

/-- `re.sub(r'\n\s*\n', '\n\n', text)`: left-to-right, non-overlapping
replacement of each greedy match of `\n\s*\n` by two newlines. -/
def subNN : List Char → List Char
  | [] => []
  | c :: rest =>
    if c = '\n' then
      match matchLen rest with
      | some k => '\n' :: '\n' :: subNN (rest.drop k)
      | none => c :: subNN rest
    else c :: subNN rest
termination_by s => s.length
decreasing_by
  all_goals simp only [List.length_drop, List.length_cons]
  all_goals omega

/-- Python `str.lstrip()` restricted to whitespace. -/
def lstrip (s : List Char) : List Char := s.dropWhile pySpace

/-- Python `str.rstrip()` restricted to whitespace. -/
def rstrip (s : List Char) : List Char := (s.reverse.dropWhile pySpace).reverse

/-- Python `str.strip()`. -/
def stripChars (s : List Char) : List Char := rstrip (lstrip s)

/-- `TextChunker.clean_text`: collapse whitespace runs to a single
space, then the blank-line rewrite `\n\s*\n -> \n\n`, then strip. -/
def cleanText (s : List Char) : List Char :=
  stripChars (subNN (collapseWS false s))

/-- Helper of `splitWords`: the accumulator holds the reversed current
word. -/
def splitAux : List Char → List Char → List (List Char)
  | acc, [] => if acc.isEmpty then [] else [acc.reverse]
  | acc, c :: rest =>
    if pySpace c then
      if acc.isEmpty then splitAux [] rest else acc.reverse :: splitAux [] rest
    else splitAux (c :: acc) rest

/-- Python `str.split()` with no arguments: split on whitespace runs,
dropping empty pieces. -/
def splitWords (s : List Char) : List (List Char) := splitAux [] s

/-- Python `' '.join(ws)`. -/
def joinSpace : List (List Char) → List Char
  | [] => []
  | [w] => w
  | w :: ws => w ++ ' ' :: joinSpace ws

/-- A word produced by `splitWords`: nonempty and whitespace-free. -/
def goodWord (w : List Char) : Prop :=
  w ≠ [] ∧ ∀ c ∈ w, pySpace c = false

/-! ### Lemmas about the normalization pipeline -/

theorem mem_collapseWS {c : Char} :
    ∀ (prev : Bool) (s : List Char), c ∈ collapseWS prev s →
      c = ' ' ∨ (c ∈ s ∧ pySpace c = false) := by
  intro prev s
  induction s generalizing prev with
  | nil => simp [collapseWS]
  | cons a rest ih =>
    simp only [collapseWS]
    by_cases ha : pySpace a
    · simp only [ha, if_true]
      cases prev with
      | true =>
        intro h
        rcases ih true h with h' | h'
        · exact Or.inl h'
        · exact Or.inr ⟨List.mem_cons_of_mem _ h'.1, h'.2⟩
      | false =>
        intro h
        rcases List.mem_cons.mp h with h' | h'
        · exact Or.inl h'
        · rcases ih true h' with h'' | h''
          · exact Or.inl h''
          · exact Or.inr ⟨List.mem_cons_of_mem _ h''.1, h''.2⟩
    · simp only [ha, if_false]
      intro h
      rcases List.mem_cons.mp h with h' | h'
      · subst h'
        exact Or.inr ⟨List.mem_cons_self _ _, by simpa using ha⟩
      · rcases ih false h' with h'' | h''
        · exact Or.inl h''
        · exact Or.inr ⟨List.mem_cons_of_mem _ h''.1, h''.2⟩

theorem newline_not_mem_collapseWS (prev : Bool) (s : List Char) :
    '\n' ∉ collapseWS prev s := by
  intro h
  rcases mem_collapseWS prev s h with h' | h'
  · exact absurd h' (by decide)
  · exact absurd h'.2 (by simp [pySpace])

theorem subNN_of_no_newline : ∀ s : List Char, '\n' ∉ s → subNN s = s := by
  intro s
  induction s with
  | nil => intro _; rw [subNN]
  | cons c rest ih =>
    intro h
    have hc : ¬ c = '\n' := fun he => h (he ▸ List.mem_cons_self _ _)
    have hrest : '\n' ∉ rest := fun hm => h (List.mem_cons_of_mem _ hm)
    rw [subNN, if_neg hc, ih hrest]

theorem dropWhile_collapseWS_true (s : List Char) :
    (collapseWS true s).dropWhile pySpace = collapseWS true s := by
  induction s with
  | nil => rfl
  | cons c rest ih =>
    simp only [collapseWS]
    by_cases hc : pySpace c
    · simpa [hc] using ih
    · simp [hc, List.dropWhile_cons]

theorem dropWhile_collapseWS_false (s : List Char) :
    (collapseWS false s).dropWhile pySpace = collapseWS true s := by
  induction s with
  | nil => rfl
  | cons c rest _ =>
    simp only [collapseWS]
    by_cases hc : pySpace c
    · simp only [hc, if_true, if_false, Bool.false_eq_true, List.dropWhile_cons]
      simp only [pySpace, Char.reduceEq]
      simpa using dropWhile_collapseWS_true rest
    · simp [hc, List.dropWhile_cons]

theorem rstrip_cons_nonspace {c : Char} (hc : pySpace c = false) (l : List Char) :
    rstrip (c :: l) = c :: rstrip l := by
  unfold rstrip
  rw [List.reverse_cons, List.dropWhile_append]
  by_cases h : (l.reverse.dropWhile pySpace).isEmpty
  · simp [h, List.dropWhile_cons, hc, List.isEmpty_iff.mp h]
  · simp [h]

theorem rstrip_cons_space {c : Char} (hc : pySpace c = true) (l : List Char) :
    rstrip (c :: l) = if rstrip l = [] then [] else c :: rstrip l := by
  unfold rstrip
  rw [List.reverse_cons, List.dropWhile_append]
  by_cases h : (l.reverse.dropWhile pySpace).isEmpty
  · simp [h, List.dropWhile_cons, hc, List.isEmpty_iff.mp h]
  · have h' : l.reverse.dropWhile pySpace ≠ [] := by
      simpa [List.isEmpty_iff] using h
    simp [h, h']

theorem splitAux_words_good :
    ∀ (s acc : List Char), (∀ c ∈ acc, pySpace c = false) →
      ∀ w ∈ splitAux acc s, goodWord w := by
  intro s
  induction s with
  | nil =>
    intro acc hacc w hw
    simp only [splitAux] at hw
    by_cases h : acc.isEmpty
    · simp [h] at hw
    · simp only [h, if_false, Bool.false_eq_true, List.mem_singleton] at hw
      subst hw
      refine ⟨by simpa [List.isEmpty_iff] using h, ?_⟩
      intro c hc
      exact hacc c (by simpa using hc)
  | cons c rest ih =>
    intro acc hacc w hw
    simp only [splitAux] at hw
    by_cases hc : pySpace c
    · simp only [hc, if_true] at hw
      by_cases h : acc.isEmpty
      · simp only [h, if_true] at hw
        exact ih [] (by simp) w hw
      · simp only [h, if_false, Bool.false_eq_true, List.mem_cons] at hw
        rcases hw with hw | hw
        · subst hw
          refine ⟨by simpa [List.isEmpty_iff] using h, ?_⟩
          intro a ha
          exact hacc a (by simpa using ha)
        · exact ih [] (by simp) w hw
    · simp only [hc, if_false, Bool.false_eq_true] at hw
      refine ih (c :: acc) ?_ w hw
      intro a ha
      rcases List.mem_cons.mp ha with ha | ha
      · subst ha; simpa using hc
      · exact hacc a ha

theorem splitWords_words_good (s : List Char) :
    ∀ w ∈ splitWords s, goodWord w :=
  splitAux_words_good s [] (by simp)

theorem joinSpace_eq_nil_iff (ws : List (List Char))
    (h : ∀ w ∈ ws, goodWord w) : joinSpace ws = [] ↔ ws = [] := by
  cases ws with
  | nil => simp [joinSpace]
  | cons w ws =>
    cases ws with
    | nil =>
      simp only [joinSpace]
      have := (h w (List.mem_cons_self _ _)).1
      simp [this]
    | cons w' ws' =>
      simp only [joinSpace]
      have := (h w (List.mem_cons_self _ _)).1
      constructor
      · intro he
        exact absurd (List.append_eq_nil.mp he).1 this
      · intro he; cases he

theorem joinSpace_splitAux (s : List Char) :
    ∀ acc : List Char,
      joinSpace (splitAux acc s) =
        acc.reverse ++ rstrip (collapseWS acc.isEmpty s) := by
  induction s with
  | nil =>
    intro acc
    simp only [splitAux, collapseWS]
    by_cases h : acc.isEmpty
    · simp [h, List.isEmpty_iff.mp h, joinSpace, rstrip]
    · simp [h, joinSpace, rstrip]
  | cons c rest ih =>
    intro acc
    simp only [splitAux, collapseWS]
    by_cases hc : pySpace c
    · simp only [hc, if_true]
      by_cases h : acc.isEmpty
      · simpa [h, List.isEmpty_iff.mp h] using ih []
      · simp only [h, if_false, Bool.false_eq_true]
        have hrec := ih []
        simp only [List.isEmpty_nil, List.reverse_nil, List.nil_append] at hrec
        rw [rstrip_cons_space (show pySpace ' ' = true by decide)]
        by_cases hnil : rstrip (collapseWS true rest) = []
        · have hsnil : splitAux [] rest = [] := by
            have := joinSpace_eq_nil_iff (splitAux [] rest)
              (splitAux_words_good rest [] (by simp))
            exact this.mp (by rw [hrec, hnil])
          simp [hsnil, hnil, joinSpace]
        · have hsne : splitAux [] rest ≠ [] := by
            intro he
            exact hnil (by rw [← hrec, he]; rfl)
          rcases List.exists_cons_of_ne_nil hsne with ⟨w, ws, hws⟩
          rw [hws]
          have hj : joinSpace (acc.reverse :: w :: ws) =
              acc.reverse ++ ' ' :: joinSpace (w :: ws) := rfl
          rw [hj, ← hws, hrec, if_neg hnil]
    · simp only [hc, if_false, Bool.false_eq_true]
      have hrec := ih (c :: acc)
      simp only [List.isEmpty_cons, List.reverse_cons] at hrec
      rw [hrec, rstrip_cons_nonspace (by simpa using hc)]
      simp

theorem cleanText_eq_joinSpace_splitWords (s : List Char) :
    cleanText s = joinSpace (splitWords s) := by
  unfold cleanText stripChars lstrip
  rw [subNN_of_no_newline _ (newline_not_mem_collapseWS false s),
    dropWhile_collapseWS_false]
  have := joinSpace_splitAux s []
  simpa [splitWords] using this.symm

theorem splitAux_append_word (w : List Char) (hw : ∀ c ∈ w, pySpace c = false) :
    ∀ (acc t : List Char), splitAux acc (w ++ t) = splitAux (w.reverse ++ acc) t := by
  induction w with
  | nil => intro acc t; simp
  | cons c ws ih =>
    intro acc t
    have hc : pySpace c = false := hw c (List.mem_cons_self _ _)
    have hws : ∀ a ∈ ws, pySpace a = false := fun a ha => hw a (List.mem_cons_of_mem _ ha)
    simp only [List.cons_append, splitAux, hc, if_false, Bool.false_eq_true,
      List.append_eq]
    rw [ih hws (c :: acc) t]
    simp

theorem splitWords_joinSpace (ws : List (List Char))
    (h : ∀ w ∈ ws, goodWord w) : splitWords (joinSpace ws) = ws := by
  induction ws with
  | nil => rfl
  | cons w ws ih =>
    have hw := h w (List.mem_cons_self _ _)
    have hws : ∀ v ∈ ws, goodWord v := fun v hv => h v (List.mem_cons_of_mem _ hv)
    cases ws with
    | nil =>
      show splitWords (joinSpace [w]) = [w]
      unfold splitWords joinSpace
      rw [show w = w ++ [] by simp, splitAux_append_word w hw.2]
      simp [splitAux, List.isEmpty_iff, hw.1]
    | cons w' ws' =>
      show splitWords (w ++ ' ' :: joinSpace (w' :: ws')) = w :: w' :: ws'
      unfold splitWords
      rw [splitAux_append_word w hw.2]
      simp only [List.append_nil, splitAux, show pySpace ' ' = true by decide, if_true]
      have hne : (w.reverse).isEmpty = false := by
        simp [List.isEmpty_iff, hw.1]
      simp only [hne, if_false, Bool.false_eq_true, List.reverse_reverse]
      rw [show splitAux [] (joinSpace (w' :: ws')) = splitWords (joinSpace (w' :: ws')) from rfl,
        ih hws]

theorem splitWords_cleanText (s : List Char) :
    splitWords (cleanText s) = splitWords s := by
  rw [cleanText_eq_joinSpace_splitWords,
    splitWords_joinSpace _ (splitWords_words_good s)]

theorem cleanText_idem (s : List Char) :
    cleanText (cleanText s) = cleanText s := by
  rw [cleanText_eq_joinSpace_splitWords (cleanText s), splitWords_cleanText,
    cleanText_eq_joinSpace_splitWords]

theorem splitAux_all_space (s : List Char) (h : ∀ c ∈ s, pySpace c = true) :
    splitAux [] s = [] := by
  induction s with
  | nil => rfl
  | cons c rest ih =>
    have hc := h c (List.mem_cons_self _ _)
    simp only [splitAux, hc, if_true, List.isEmpty_nil]
    exact ih fun a ha => h a (List.mem_cons_of_mem _ ha)

theorem cleanText_all_space (s : List Char) (h : ∀ c ∈ s, pySpace c = true) :
    cleanText s = [] := by
  rw [cleanText_eq_joinSpace_splitWords]
  unfold splitWords
  rw [splitAux_all_space s h]
  rfl

theorem mem_joinSpace {c : Char} :
    ∀ ws : List (List Char), c ∈ joinSpace ws → c = ' ' ∨ ∃ w ∈ ws, c ∈ w := by
  intro ws
  induction ws with
  | nil => simp [joinSpace]
  | cons w ws ih =>
    cases ws with
    | nil =>
      intro h
      exact Or.inr ⟨w, List.mem_cons_self _ _, by simpa [joinSpace] using h⟩
    | cons w' ws' =>
      intro h
      simp only [joinSpace, List.mem_append, List.mem_cons] at h
      rcases h with h | h | h
      · exact Or.inr ⟨w, List.mem_cons_self _ _, h⟩
      · exact Or.inl h
      · rcases ih h with h' | ⟨v, hv, hcv⟩
        · exact Or.inl h'
        · exact Or.inr ⟨v, List.mem_cons_of_mem _ hv, hcv⟩

theorem newline_not_mem_cleanText (s : List Char) : '\n' ∉ cleanText s := by
  rw [cleanText_eq_joinSpace_splitWords]
  intro h
  rcases mem_joinSpace _ h with h' | ⟨w, hw, hcw⟩
  · exact absurd h' (by decide)
  · have := (splitWords_words_good s w hw).2 '\n' hcw
    simp [pySpace] at this

/-! ### The chunker: data model and operations -/

/-- `TextChunker`: the three configuration fields stored by
`TextChunker.__init__`.  They are Python `int`s, hence `Int`. -/
structure TextChunker where
  chunk_size : Int
  chunk_overlap : Int
  min_chunk_size : Int
deriving DecidableEq

/-- `TextChunker.__init__`: the constructor body only stores the three
parameters; it contains no validation and no `raise`.  The `Except`
codomain models Python's ability to raise at construction time: this
constructor never uses the error branch. -/
def TextChunker.init (chunk_size chunk_overlap min_chunk_size : Int) :
    Except String TextChunker :=
  Except.ok ⟨chunk_size, chunk_overlap, min_chunk_size⟩

/-- The metadata dict attached to a chunk; one constructor per dict
literal in the source (`chunk_by_words` small-document case,
`chunk_by_words` window case, `chunk_by_paragraphs` paragraph case). -/
inductive ChunkMeta where
  | complete (word_count : Nat) (document_id : Option Int) (is_complete : Bool)
  | window (word_count : Nat) (document_id : Option Int)
      (start_position end_position : Int) (total_words : Nat)
  | paras (word_count : Nat) (document_id : Option Int) (paragraph_count : Nat)
deriving DecidableEq

/-- The `TextChunk` dataclass. -/
structure TextChunk where
  text : List Char
  chunk_index : Nat
  metadata : ChunkMeta
deriving DecidableEq

/-- Python list slicing `l[a:b]` with `int` indices (negative indices
count from the end; out-of-range indices are clamped). -/
def pySlice {α : Type} (l : List α) (a b : Int) : List α :=
  let n : Int := l.length
  let a' := (if a < 0 then max (n + a) 0 else min a n).toNat
  let b' := (if b < 0 then max (n + b) 0 else min b n).toNat
  (l.drop a').take (b' - a')

/-- The `while start < len(words)` loop of `chunk_by_words`.  `fuel`
bounds the number of iterations; `none` means the bound was exhausted
(the Python loop does not terminate when `chunk_size - chunk_overlap`
is not positive; for every valid configuration the fuel passed by
`chunkByWords` is shown sufficient). -/
def chunkLoop (cfg : TextChunker) (words : List (List Char))
    (docId : Option Int) : Nat → Int → Nat → Option (List TextChunk)
  | 0, start, _ =>
    if start < (words.length : Int) then none else some []
  | fuel + 1, start, idx =>
    if start < (words.length : Int) then
      let e := start + cfg.chunk_size
      let cw := pySlice words start e
      if (cw.length : Int) < cfg.min_chunk_size ∧
          start + cfg.chunk_size < (words.length : Int) then
        chunkLoop cfg words docId fuel (e - cfg.chunk_overlap) idx
      else
        match chunkLoop cfg words docId fuel (e - cfg.chunk_overlap) (idx + 1) with
        | none => none
        | some rest =>
          some (⟨joinSpace cw, idx,
            .window cw.length docId start e words.length⟩ :: rest)
    else
      some []

/-- `TextChunker.chunk_by_words`. -/
def chunkByWords (cfg : TextChunker) (text : List Char)
    (docId : Option Int) : Option (List TextChunk) :=
  let t := cleanText text
  let words := splitWords t
  if (words.length : Int) ≤ cfg.chunk_size then
    some [⟨t, 0, .complete words.length docId true⟩]
  else
    chunkLoop cfg words docId words.length 0 0

/-- Helper of `splitParas`; the accumulator holds the reversed current
piece. -/
def splitParasAux : List Char → List Char → List (List Char)
  | acc, [] => [acc.reverse]
  | acc, [c] => [(c :: acc).reverse]
  | acc, c1 :: c2 :: rest =>
    if c1 = '\n' ∧ c2 = '\n' then
      acc.reverse :: splitParasAux [] ((c2 :: rest).dropWhile (· = '\n'))
    else
      splitParasAux (c1 :: acc) (c2 :: rest)
termination_by _ s => s.length
decreasing_by
  · have := (List.dropWhile_sublist (l := c2 :: rest)
      (fun c => decide (c = '\n'))).length_le
    simp only [List.length_cons] at *
    omega
  · simp only [List.length_cons]; omega

/-- `re.split(r'\n\n+', text)`: split on each maximal run of two or more
newlines. -/
def splitParas (s : List Char) : List (List Char) := splitParasAux [] s

/-- Python `'\n\n'.join(ws)`. -/
def joinNN : List (List Char) → List Char
  | [] => []
  | [w] => w
  | w :: ws => w ++ '\n' :: '\n' :: joinNN ws

/-- `TextChunker.chunk_by_paragraphs`, main loop over the paragraph
list: state is (remaining paragraphs, current_chunk, current_word_count,
chunk_index). -/
def paraLoop (cfg : TextChunker) (docId : Option Int) :
    List (List Char) → List (List Char) → Nat → Nat → Option (List TextChunk)
  | [], current, cwc, idx =>
    if current.isEmpty then some []
    else some [⟨joinNN current, idx, .paras cwc docId current.length⟩]
  | para :: rest, current, cwc, idx =>
    let pwc := (splitWords para).length
    if cfg.chunk_size < (pwc : Int) then
      let flushed : List TextChunk :=
        if current.isEmpty then []
        else [⟨joinNN current, idx, .paras cwc docId current.length⟩]
      let idx1 := if current.isEmpty then idx else idx + 1
      match chunkByWords cfg para docId with
      | none => none
      | some subs =>
        match paraLoop cfg docId rest [] 0 (idx1 + subs.length) with
        | none => none
        | some tail =>
          some (flushed ++
            subs.mapIdx (fun i c => { c with chunk_index := idx1 + i }) ++ tail)
    else
      if (cwc + pwc : Int) ≤ cfg.chunk_size then
        paraLoop cfg docId rest (current ++ [para]) (cwc + pwc) idx
      else
        if current.isEmpty then
          paraLoop cfg docId rest [para] pwc idx
        else
          match paraLoop cfg docId rest [para] pwc (idx + 1) with
          | none => none
          | some tail =>
            some (⟨joinNN current, idx, .paras cwc docId current.length⟩ :: tail)

/-- `TextChunker.chunk_by_paragraphs`. -/
def chunkByParagraphs (cfg : TextChunker) (text : List Char)
    (docId : Option Int) : Option (List TextChunk) :=
  let t := cleanText text
  paraLoop cfg docId (splitParas t) [] 0 0

/-! ### Lemmas about the word-window loop -/

theorem pySlice_eq {α : Type} (l : List α) (a b : Int) (ha : 0 ≤ a) (hb : 0 ≤ b) :
    pySlice l a b = (l.drop a.toNat).take (b.toNat - a.toNat) := by
  simp only [pySlice, if_neg (show ¬ a < 0 by omega), if_neg (show ¬ b < 0 by omega)]
  rcases le_or_lt a.toNat l.length with h | h
  · have h1 : (min a (l.length : Int)).toNat = a.toNat := by omega
    rcases le_or_lt b.toNat l.length with h2 | h2
    · have h3 : (min b (l.length : Int)).toNat = b.toNat := by omega
      rw [h1, h3]
    · have h3 : (min b (l.length : Int)).toNat = l.length := by omega
      rw [h1, h3]
      rw [List.take_of_length_le (by simp only [List.length_drop]; omega),
        List.take_of_length_le (by simp only [List.length_drop]; omega)]
  · have h1 : (min a (l.length : Int)).toNat = l.length := by omega
    have h2 : l.drop (min a (l.length : Int)).toNat = [] := by
      rw [h1]; simp
    have h3 : l.drop a.toNat = [] := List.drop_eq_nil_iff.mpr (by omega)
    rw [h2, h3, List.take_nil, List.take_nil]

theorem chunkLoop_isSome (cfg : TextChunker) (words : List (List Char))
    (docId : Option Int) (hstep : 0 < cfg.chunk_size - cfg.chunk_overlap) :
    ∀ (fuel : Nat) (start : Int) (idx : Nat),
      (words.length : Int) ≤ start + fuel →
      (chunkLoop cfg words docId fuel start idx).isSome := by
  intro fuel
  induction fuel with
  | zero =>
    intro start idx h
    rw [chunkLoop, if_neg (by omega)]
    rfl
  | succ fuel ih =>
    intro start idx h
    rw [chunkLoop]
    by_cases hlt : start < (words.length : Int)
    · rw [if_pos hlt]
      simp only
      by_cases hskip : ((pySlice words start (start + cfg.chunk_size)).length : Int) <
          cfg.min_chunk_size ∧ start + cfg.chunk_size < (words.length : Int)
      · rw [if_pos hskip]
        exact ih _ _ (by omega)
      · rw [if_neg hskip]
        have hrec := ih (start + cfg.chunk_size - cfg.chunk_overlap) (idx + 1) (by omega)
        cases hr : chunkLoop cfg words docId fuel
            (start + cfg.chunk_size - cfg.chunk_overlap) (idx + 1) with
        | none => rw [hr] at hrec; exact absurd hrec (by simp)
        | some rest => rfl
    · rw [if_neg hlt]; rfl

theorem chunkLoop_indices (cfg : TextChunker) (words : List (List Char))
    (docId : Option Int) :
    ∀ (fuel : Nat) (start : Int) (idx : Nat) (chunks : List TextChunk),
      chunkLoop cfg words docId fuel start idx = some chunks →
      chunks.map TextChunk.chunk_index = List.range' idx chunks.length := by
  intro fuel
  induction fuel with
  | zero =>
    intro start idx chunks h
    rw [chunkLoop] at h
    by_cases hlt : start < (words.length : Int)
    · rw [if_pos hlt] at h; cases h
    · rw [if_neg hlt] at h
      cases h
      rfl
  | succ fuel ih =>
    intro start idx chunks h
    rw [chunkLoop] at h
    by_cases hlt : start < (words.length : Int)
    · rw [if_pos hlt] at h
      simp only at h
      by_cases hskip : ((pySlice words start (start + cfg.chunk_size)).length : Int) <
          cfg.min_chunk_size ∧ start + cfg.chunk_size < (words.length : Int)
      · rw [if_pos hskip] at h
        exact ih _ _ _ h
      · rw [if_neg hskip] at h
        cases hr : chunkLoop cfg words docId fuel
            (start + cfg.chunk_size - cfg.chunk_overlap) (idx + 1) with
        | none => rw [hr] at h; cases h
        | some rest =>
          rw [hr] at h
          cases h
          have := ih _ _ _ hr
          simp only [List.map_cons, List.length_cons, this, List.range'_succ]
    · rw [if_neg hlt] at h
      cases h
      rfl

theorem chunkLoop_drop (cfg : TextChunker) (words : List (List Char))
    (docId : Option Int)
    (h1 : 0 < cfg.chunk_size) (h2 : 0 ≤ cfg.chunk_overlap)
    (h3 : cfg.chunk_overlap < cfg.chunk_size)
    (h5 : cfg.min_chunk_size ≤ cfg.chunk_size)
    (Hw : ∀ w ∈ words, goodWord w) :
    ∀ (fuel : Nat) (start : Int) (idx : Nat) (chunks : List TextChunk),
      0 ≤ start →
      chunkLoop cfg words docId fuel start idx = some chunks →
      (chunks.map
          (fun d => (splitWords d.text).drop cfg.chunk_overlap.toNat)).flatten
        = words.drop (start.toNat + cfg.chunk_overlap.toNat) := by
  intro fuel
  induction fuel with
  | zero =>
    intro start idx chunks hs h
    rw [chunkLoop] at h
    by_cases hlt : start < (words.length : Int)
    · rw [if_pos hlt] at h; cases h
    · rw [if_neg hlt] at h
      cases h
      simp only [List.map_nil, List.flatten_nil]
      rw [eq_comm, List.drop_eq_nil_iff]
      omega
  | succ fuel ih =>
    intro start idx chunks hs h
    rw [chunkLoop] at h
    by_cases hlt : start < (words.length : Int)
    · rw [if_pos hlt] at h
      simp only at h
      have hslice : pySlice words start (start + cfg.chunk_size)
          = (words.drop start.toNat).take
              ((start + cfg.chunk_size).toNat - start.toNat) :=
        pySlice_eq words start (start + cfg.chunk_size) hs (by omega)
      have hlen : (pySlice words start (start + cfg.chunk_size)).length
          = min ((start + cfg.chunk_size).toNat - start.toNat)
              (words.length - start.toNat) := by
        rw [hslice]; simp [List.length_take, List.length_drop]
      by_cases hskip : ((pySlice words start (start + cfg.chunk_size)).length : Int) <
          cfg.min_chunk_size ∧ start + cfg.chunk_size < (words.length : Int)
      · exact absurd hskip (by rw [hlen]; omega)
      · rw [if_neg hskip] at h
        cases hr : chunkLoop cfg words docId fuel
            (start + cfg.chunk_size - cfg.chunk_overlap) (idx + 1) with
        | none => rw [hr] at h; cases h
        | some rest =>
          rw [hr] at h
          cases h
          have hrec := ih _ _ _ (by omega) hr
          simp only [List.map_cons, List.flatten_cons]
          have hgood : ∀ w ∈ pySlice words start (start + cfg.chunk_size), goodWord w := by
            intro w hw
            rw [hslice] at hw
            exact Hw w (List.drop_subset _ _ (List.take_subset _ _ hw))
          rw [splitWords_joinSpace _ hgood, hrec, hslice]
          have he1 : (start + cfg.chunk_size).toNat - start.toNat
              = cfg.chunk_size.toNat := by omega
          have he2 : (start + cfg.chunk_size - cfg.chunk_overlap).toNat
                + cfg.chunk_overlap.toNat
              = start.toNat + cfg.chunk_size.toNat := by omega
          rw [he1, he2, List.drop_take, List.drop_drop]
          have he3 : words.drop (start.toNat + cfg.chunk_size.toNat)
              = (words.drop (start.toNat + cfg.chunk_overlap.toNat)).drop
                  (cfg.chunk_size.toNat - cfg.chunk_overlap.toNat) := by
            rw [List.drop_drop]; congr 1; omega
          rw [he3, List.take_append_drop]
    · rw [if_neg hlt] at h; cases h
      simp only [List.map_nil, List.flatten_nil]
      rw [eq_comm, List.drop_eq_nil_iff]
      omega

/-- Word lists of a chunk run, with the overlap-duplicated leading words
of every chunk but the first removed. -/
def reconWords (ov : Nat) : List TextChunk → List (List Char)
  | [] => []
  | c :: rest =>
    splitWords c.text ++
      (rest.map (fun d => (splitWords d.text).drop ov)).flatten

theorem chunkLoop_recon (cfg : TextChunker) (words : List (List Char))
    (docId : Option Int)
    (h1 : 0 < cfg.chunk_size) (h2 : 0 ≤ cfg.chunk_overlap)
    (h3 : cfg.chunk_overlap < cfg.chunk_size)
    (h5 : cfg.min_chunk_size ≤ cfg.chunk_size)
    (Hw : ∀ w ∈ words, goodWord w)
    (fuel : Nat) (start : Int) (idx : Nat) (chunks : List TextChunk)
    (hs : 0 ≤ start)
    (h : chunkLoop cfg words docId fuel start idx = some chunks)
    (hlt : start < (words.length : Int)) :
    reconWords cfg.chunk_overlap.toNat chunks = words.drop start.toNat := by
  cases fuel with
  | zero =>
    rw [chunkLoop, if_pos hlt] at h
    cases h
  | succ fuel =>
    rw [chunkLoop, if_pos hlt] at h
    simp only at h
    have hslice : pySlice words start (start + cfg.chunk_size)
        = (words.drop start.toNat).take
            ((start + cfg.chunk_size).toNat - start.toNat) :=
      pySlice_eq words start (start + cfg.chunk_size) hs (by omega)
    have hlen : (pySlice words start (start + cfg.chunk_size)).length
        = min ((start + cfg.chunk_size).toNat - start.toNat)
            (words.length - start.toNat) := by
      rw [hslice]; simp [List.length_take, List.length_drop]
    by_cases hskip : ((pySlice words start (start + cfg.chunk_size)).length : Int) <
        cfg.min_chunk_size ∧ start + cfg.chunk_size < (words.length : Int)
    · exact absurd hskip (by rw [hlen]; omega)
    · rw [if_neg hskip] at h
      cases hr : chunkLoop cfg words docId fuel
          (start + cfg.chunk_size - cfg.chunk_overlap) (idx + 1) with
      | none => rw [hr] at h; cases h
      | some rest =>
        rw [hr] at h
        cases h
        have hrec := chunkLoop_drop cfg words docId h1 h2 h3 h5 Hw
          fuel _ _ _ (by omega) hr
        have hgood : ∀ w ∈ pySlice words start (start + cfg.chunk_size), goodWord w := by
          intro w hw
          rw [hslice] at hw
          exact Hw w (List.drop_subset _ _ (List.take_subset _ _ hw))
        simp only [reconWords]
        rw [splitWords_joinSpace _ hgood, hrec, hslice]
        have he1 : (start + cfg.chunk_size).toNat - start.toNat
            = cfg.chunk_size.toNat := by omega
        have he2 : (start + cfg.chunk_size - cfg.chunk_overlap).toNat
              + cfg.chunk_overlap.toNat
            = start.toNat + cfg.chunk_size.toNat := by omega
        rw [he1, he2]
        have he3 : words.drop (start.toNat + cfg.chunk_size.toNat)
            = (words.drop start.toNat).drop cfg.chunk_size.toNat := by
          rw [List.drop_drop]
        rw [he3, List.take_append_drop]

/-! ### The scraper: statistics and `get_page` -/

/-- The `self.stats` dict of `GesetzeScraper`. -/
structure ScraperStats where
  pages_fetched : Nat
  documents_found : Nat
  errors : Nat
  retries : Nat
deriving DecidableEq

/-- `GesetzeScraper.get_page`.  The network is modelled by `outcome`:
`outcome k = true` means the HTTP request made with `retry_count = k`
succeeds, `false` that it raises a `RequestException`.  The response is
modelled by `Unit`; the statistics dict is threaded explicitly. -/
def get_page (outcome : Nat → Bool) (max_retries : Nat)
    (retry_count : Nat) (st : ScraperStats) : Option Unit × ScraperStats :=
  if outcome retry_count then
    (some (), { st with pages_fetched := st.pages_fetched + 1 })
  else
    let st1 := { st with errors := st.errors + 1 }
    if h : retry_count < max_retries then
      let st2 := { st1 with retries := st1.retries + 1 }
      get_page outcome max_retries (retry_count + 1) st2
    else
      (none, st1)
termination_by max_retries - retry_count
decreasing_by omega

/-- The `success_rate` computed by `GesetzeScraper.get_statistics`:
`pages_fetched / total * 100` when `total > 0`, else `0`.  Python float
division is modelled by exact rational division. -/
def successRate (st : ScraperStats) : ℚ :=
  let total := st.pages_fetched + st.errors
  if 0 < total then (st.pages_fetched : ℚ) / (total : ℚ) * 100 else 0

/-- `GesetzeScraper.get_statistics`: returns the counters together with
the derived `success_rate`. -/
def get_statistics (st : ScraperStats) : ScraperStats × ℚ :=
  (st, successRate st)

/-! ### Document storage -/

/-- A raw scraped document as passed to `DocumentStorage`. -/
structure RawDoc where
  title : String
  url : String
  content : String
  content_hash : String
deriving DecidableEq

/-- A stored `Document` row (the columns relevant to deduplication). -/
structure DocRow where
  id : Nat
  url : String
  content_hash : String
deriving DecidableEq

/-- The database table together with the autoincrement counter that
assigns fresh identifiers. -/
structure StoreState where
  nextId : Nat
  rows : List DocRow
deriving DecidableEq

/-- The duplicate filter of `DocumentStorage.save_document`:
`(Document.url == url) | (Document.content_hash == content_hash)`. -/
def docMatches (d : RawDoc) (r : DocRow) : Bool :=
  r.url = d.url || r.content_hash = d.content_hash

/-- `DocumentStorage.save_document`: if a row matches by url or content
hash, return its id without inserting; otherwise insert a new row with
a fresh id and return that id. -/
def save_document (σ : StoreState) (d : RawDoc) : Option Nat × StoreState :=
  match σ.rows.find? (docMatches d) with
  | some r => (some r.id, σ)
  | none =>
    (some σ.nextId,
      { nextId := σ.nextId + 1,
        rows := σ.rows ++ [⟨σ.nextId, d.url, d.content_hash⟩] })

/-- Python truthiness of the `Optional[int]` returned by
`save_document` (`None` and `0` are falsy). -/
def truthy : Option Nat → Bool
  | none => false
  | some n => n ≠ 0

/-- The `stats` dict of `DocumentStorage.save_documents_batch`. -/
structure BatchStats where
  saved : Nat
  duplicates : Nat
  errors : Nat
deriving DecidableEq

/-- `DocumentStorage.save_documents_batch`. -/
def save_documents_batch (σ : StoreState) (docs : List RawDoc) :
    BatchStats × StoreState :=
  docs.foldl
    (fun acc d =>
      let r := save_document acc.2 d
      if truthy r.1 then
        ({ acc.1 with saved := acc.1.saved + 1 }, r.2)
      else
        ({ acc.1 with errors := acc.1.errors + 1 }, r.2))
    (⟨0, 0, 0⟩, σ)

/-! ### Claims -/

/-- Claim C1, counterexample: `TextChunker.__init__` called with the
invalid parameter triple `chunk_size = 0, chunk_overlap = 50,
min_chunk_size = 100` (violating `chunk_size > 0`) does not fail; it
returns a usable instance storing the parameters as given. -/
theorem claim_C1_counterexample :
    (0 : Int) ≤ 0 ∧ TextChunker.init 0 50 100 = Except.ok ⟨0, 50, 100⟩ :=
  ⟨le_refl 0, rfl⟩

/-- Claim C1, amended: `TextChunker.__init__` performs no validation at
all; for every parameter triple, valid or invalid, it succeeds and
stores the three parameters unchanged. -/
theorem claim_C1_no_validation (chunk_size chunk_overlap min_chunk_size : Int) :
    TextChunker.init chunk_size chunk_overlap min_chunk_size
      = Except.ok ⟨chunk_size, chunk_overlap, min_chunk_size⟩ :=
  rfl

/-- Claim C2, counterexample: `clean_text` applied to two paragraphs
separated by a blank line (`"a\n\nb"`) yields `"a b"`, which contains
no newline at all: the blank-line separator is not preserved. -/
theorem claim_C2_counterexample :
    cleanText ("a\n\nb".toList) = "a b".toList ∧
      '\n' ∉ cleanText ("a\n\nb".toList) := by
  have h : cleanText ("a\n\nb".toList) = "a b".toList := by
    unfold cleanText
    rw [show collapseWS false ("a\n\nb".toList) = "a b".toList from rfl,
      subNN_of_no_newline _ (by decide)]
    rfl
  exact ⟨h, by rw [h]; decide⟩

/-- Claim C2, amended: `clean_text` collapses every run of whitespace —
newlines included — to a single space and trims leading and trailing
whitespace, so that the result is exactly the words of the input joined
by single spaces; the blank-line-collapsing step is a no-op because the
preceding whitespace collapse already removed all newlines, hence no
blank-line separator survives normalization. -/
theorem claim_C2_normalization (s : List Char) :
    cleanText s = joinSpace (splitWords s) ∧ '\n' ∉ cleanText s :=
  ⟨cleanText_eq_joinSpace_splitWords s, newline_not_mem_cleanText s⟩

/-- Claim C9: normalization is idempotent,
`clean_text(clean_text(x)) = clean_text(x)` for every string `x`. -/
theorem claim_C9_idempotent (x : List Char) :
    cleanText (cleanText x) = cleanText x :=
  cleanText_idem x

/-- Claim C4, counterexample: with `pages_fetched = 1` and `errors = 0`
the code returns `success_rate = 100`, not the claimed ratio
`1 / (1 + 0) = 1`; the value is not in `[0, 1]`. -/
theorem claim_C4_counterexample :
    successRate ⟨1, 0, 0, 0⟩ = 100 ∧ ¬ successRate ⟨1, 0, 0, 0⟩ ≤ 1 := by
  constructor <;> norm_num [successRate]

/-- Claim C4, amended: `get_statistics` returns `success_rate` equal to
`pages_fetched / (pages_fetched + errors) * 100` — a percentage in
`[0, 100]`, not a ratio in `[0, 1]` — and `0` when the denominator is
`0`. -/
theorem claim_C4_success_rate (st : ScraperStats) :
    (get_statistics st).2
        = (if st.pages_fetched + st.errors = 0 then 0
           else (st.pages_fetched : ℚ)
              / ((st.pages_fetched : ℚ) + (st.errors : ℚ)) * 100) ∧
      0 ≤ (get_statistics st).2 ∧ (get_statistics st).2 ≤ 100 := by
  unfold get_statistics successRate
  by_cases h : st.pages_fetched + st.errors = 0
  · simp [h]
  · have hpos : (0 : ℚ) < ((st.pages_fetched + st.errors : Nat) : ℚ) := by
      exact_mod_cast Nat.pos_of_ne_zero h
    have hcast : ((st.pages_fetched + st.errors : Nat) : ℚ)
        = (st.pages_fetched : ℚ) + (st.errors : ℚ) := by push_cast; ring
    have hle : (st.pages_fetched : ℚ)
        / ((st.pages_fetched : ℚ) + (st.errors : ℚ)) ≤ 1 := by
      rw [div_le_one (by rw [← hcast]; exact hpos)]
      have : (st.pages_fetched : ℚ) ≤ ((st.pages_fetched + st.errors : Nat) : ℚ) := by
        exact_mod_cast Nat.le_add_right _ _
      rw [hcast] at this
      exact this
    have hnn : (0 : ℚ) ≤ (st.pages_fetched : ℚ)
        / ((st.pages_fetched : ℚ) + (st.errors : ℚ)) := by
      apply div_nonneg (by positivity)
      rw [← hcast]; exact le_of_lt hpos
    refine ⟨?_, ?_, ?_⟩
    · rw [if_pos (Nat.pos_of_ne_zero h), if_neg h, hcast]
    · rw [if_pos (Nat.pos_of_ne_zero h), hcast]
      positivity
    · rw [if_pos (Nat.pos_of_ne_zero h), hcast]
      calc (st.pages_fetched : ℚ)
            / ((st.pages_fetched : ℚ) + (st.errors : ℚ)) * 100
          ≤ 1 * 100 := mul_le_mul_of_nonneg_right hle (by norm_num)
        _ = 100 := by norm_num

/-- Claim C10: on an input that is empty or all whitespace (and any
configuration with positive `chunk_size`), `chunk_by_words` returns
exactly one chunk, with empty text, `chunk_index = 0`, and metadata
`word_count = 0`, `is_complete = true`; it never returns zero chunks. -/
theorem claim_C10_whitespace_input (cfg : TextChunker)
    (hcs : 0 < cfg.chunk_size) (s : List Char)
    (hs : ∀ c ∈ s, pySpace c = true) (docId : Option Int) :
    chunkByWords cfg s docId = some [⟨[], 0, .complete 0 docId true⟩] := by
  simp only [chunkByWords]
  have hw : splitWords (cleanText s) = [] := by
    rw [splitWords_cleanText]
    exact splitAux_all_space s hs
  have hc : cleanText s = [] := cleanText_all_space s hs
  rw [hw, hc]
  simp only [List.length_nil, Nat.cast_zero]
  rw [if_pos (by omega)]

/-- Claim C10, witness. -/
theorem claim_C10_witness :
    (0 : Int) < 500 ∧ (∀ c ∈ ("  \n\t ".toList), pySpace c = true) ∧
      chunkByWords ⟨500, 50, 100⟩ ("  \n\t ".toList) none
        = some [⟨[], 0, .complete 0 none true⟩] :=
  ⟨by decide, by decide,
    claim_C10_whitespace_input ⟨500, 50, 100⟩ (by decide)
      ("  \n\t ".toList) (by decide) none⟩

/-- Claim C8: for every configuration with
`0 ≤ chunk_overlap < chunk_size` the sliding-window loop of
`chunk_by_words` terminates.  The loop's window start advances by
exactly `chunk_size − chunk_overlap ≥ 1` per iteration and the loop
stops once the start reaches or passes the word count, so a fuel of
`len(words)` iterations always suffices; `isSome` states that the
fuelled loop completes without exhausting that bound. -/
theorem claim_C8_termination (cfg : TextChunker)
    (_h2 : 0 ≤ cfg.chunk_overlap) (h3 : cfg.chunk_overlap < cfg.chunk_size)
    (text : List Char) (docId : Option Int) :
    (chunkByWords cfg text docId).isSome = true := by
  simp only [chunkByWords]
  by_cases hsmall : ((splitWords (cleanText text)).length : Int) ≤ cfg.chunk_size
  · rw [if_pos hsmall]; rfl
  · rw [if_neg hsmall]
    exact chunkLoop_isSome cfg (splitWords (cleanText text)) docId (by omega)
      (splitWords (cleanText text)).length 0 0 (by omega)

/-- Claim C8, witness. -/
theorem claim_C8_witness :
    (0 : Int) ≤ 1 ∧ (1 : Int) < 3 ∧
      (chunkByWords ⟨3, 1, 2⟩ ("a b c d e".toList) none).isSome = true :=
  ⟨by decide, by decide,
    claim_C8_termination ⟨3, 1, 2⟩ (by decide) (by decide)
      ("a b c d e".toList) none⟩

/-- Claim C5: for every input text and every valid configuration
(`chunk_size > 0`, `0 ≤ chunk_overlap < chunk_size`,
`0 < min_chunk_size ≤ chunk_size`), `chunk_by_words` emits chunks whose
`chunk_index` values are exactly `0..N-1` in emission order, and
concatenating the chunk word lists in index order after dropping the
`chunk_overlap` overlap-duplicated leading words of every chunk but the
first reconstructs `clean_text(input)` exactly. -/
theorem claim_C5_coverage (cfg : TextChunker)
    (h1 : 0 < cfg.chunk_size) (h2 : 0 ≤ cfg.chunk_overlap)
    (h3 : cfg.chunk_overlap < cfg.chunk_size)
    (_h4 : 0 < cfg.min_chunk_size) (h5 : cfg.min_chunk_size ≤ cfg.chunk_size)
    (text : List Char) (docId : Option Int) :
    ∃ chunks, chunkByWords cfg text docId = some chunks ∧
      chunks.map TextChunk.chunk_index = List.range chunks.length ∧
      joinSpace (reconWords cfg.chunk_overlap.toNat chunks) = cleanText text := by
  have hjoin : joinSpace (splitWords (cleanText text)) = cleanText text := by
    rw [splitWords_cleanText, ← cleanText_eq_joinSpace_splitWords]
  simp only [chunkByWords]
  by_cases hsmall : ((splitWords (cleanText text)).length : Int) ≤ cfg.chunk_size
  · rw [if_pos hsmall]
    refine ⟨_, rfl, by simp [List.range_eq_range'], ?_⟩
    simp only [reconWords, List.map_nil, List.flatten_nil, List.append_nil]
    exact hjoin
  · rw [if_neg hsmall]
    have hlt : (0 : Int) < ((splitWords (cleanText text)).length : Int) := by omega
    have hsome := chunkLoop_isSome cfg (splitWords (cleanText text)) docId (by omega)
      (splitWords (cleanText text)).length 0 0 (by omega)
    cases hc : chunkLoop cfg (splitWords (cleanText text)) docId
        (splitWords (cleanText text)).length 0 0 with
    | none => rw [hc] at hsome; exact absurd hsome (by simp)
    | some chunks =>
      refine ⟨chunks, rfl, ?_, ?_⟩
      · rw [chunkLoop_indices cfg _ docId _ _ _ _ hc, List.range_eq_range']
      · have hrecon := chunkLoop_recon cfg (splitWords (cleanText text)) docId
          h1 h2 h3 h5 (splitWords_words_good (cleanText text))
          (splitWords (cleanText text)).length 0 0 chunks (by omega) hc hlt
        rw [hrecon] at *
        simpa using hjoin

/-- Claim C5, witness: configuration `(3, 1, 2)` on a seven-word text. -/
theorem claim_C5_witness :
    (0 : Int) < 3 ∧ (0 : Int) ≤ 1 ∧ (1 : Int) < 3 ∧ (0 : Int) < 2 ∧
      (2 : Int) ≤ 3 ∧
      (∃ chunks, chunkByWords ⟨3, 1, 2⟩ ("a b c d e f g".toList) none
          = some chunks ∧
        chunks.map TextChunk.chunk_index = List.range chunks.length ∧
        joinSpace (reconWords (1 : Int).toNat chunks)
          = cleanText ("a b c d e f g".toList)) :=
  ⟨by decide, by decide, by decide, by decide, by decide,
    claim_C5_coverage ⟨3, 1, 2⟩ (by decide) (by decide) (by decide)
      (by decide) (by decide) ("a b c d e f g".toList) none⟩

/-- Claim C3, counterexample: a fetch that fails twice and then succeeds
on the third attempt (`max_retries = 3`) returns the successful response
but ends with `errors = 2`, not `errors = 0`: every transient failure
increments the `errors` counter before the retry check. -/
theorem claim_C3_counterexample :
    get_page (fun k => k == 2) 3 0 ⟨0, 0, 0, 0⟩ = (some (), ⟨1, 0, 2, 2⟩) := by
  rw [get_page]
  norm_num
  rw [get_page]
  norm_num
  rw [get_page]
  norm_num

/-- Claim C3, amended: for a fetch that encounters two transient
failures and then succeeds on the third attempt, with `max_retries = 3`,
`get_page` returns the successful response and afterwards the
statistics read `retries = +2`, `pages_fetched = +1`, and
`errors = +2`: the `errors` counter is incremented by every failed
attempt, transient or terminal, not only by retry exhaustion. -/
theorem claim_C3_retry_stats (f : Nat → Bool) (h0 : f 0 = false)
    (h1 : f 1 = false) (h2 : f 2 = true) (st : ScraperStats) :
    get_page f 3 0 st
      = (some (), ⟨st.pages_fetched + 1, st.documents_found,
          st.errors + 2, st.retries + 2⟩) := by
  rw [get_page, h0]
  norm_num
  rw [get_page, h1]
  norm_num
  rw [get_page, h2]
  norm_num

/-- Claim C3, witness. -/
theorem claim_C3_witness :
    ((fun k => k == 2) 0 = false) ∧ ((fun k => k == 2) 1 = false) ∧
      ((fun k => k == 2) 2 = true) ∧
      get_page (fun k => k == 2) 3 0 ⟨5, 6, 7, 8⟩
        = (some (), ⟨5 + 1, 6, 7 + 2, 8 + 2⟩) :=
  ⟨rfl, rfl, rfl, claim_C3_retry_stats (fun k => k == 2) rfl rfl rfl ⟨5, 6, 7, 8⟩⟩

/-! ### Claim C6: the paragraph strategy degenerates to the word strategy -/

theorem splitParasAux_no_newline :
    ∀ (s acc : List Char), '\n' ∉ s →
      splitParasAux acc s = [acc.reverse ++ s] := by
  intro s
  induction s with
  | nil => intro acc _; simp [splitParasAux]
  | cons c s' ih =>
    intro acc h
    have hc : c ≠ '\n' := fun he => h (he ▸ List.mem_cons_self _ _)
    have hs' : '\n' ∉ s' := fun hm => h (List.mem_cons_of_mem _ hm)
    cases s' with
    | nil => simp [splitParasAux]
    | cons c2 rest =>
      rw [show splitParasAux acc (c :: c2 :: rest)
          = if c = '\n' ∧ c2 = '\n' then
              acc.reverse :: splitParasAux [] ((c2 :: rest).dropWhile (· = '\n'))
            else splitParasAux (c :: acc) (c2 :: rest) from by rw [splitParasAux],
        if_neg (by tauto)]
      rw [ih (c :: acc) hs']
      simp

theorem splitParas_no_newline (s : List Char) (h : '\n' ∉ s) :
    splitParas s = [s] := by
  unfold splitParas
  rw [splitParasAux_no_newline s [] h]
  rfl

theorem chunkByWords_indices (cfg : TextChunker) (text : List Char)
    (docId : Option Int) (subs : List TextChunk)
    (h : chunkByWords cfg text docId = some subs) :
    subs.map TextChunk.chunk_index = List.range' 0 subs.length := by
  simp only [chunkByWords] at h
  by_cases hsmall : ((splitWords (cleanText text)).length : Int) ≤ cfg.chunk_size
  · rw [if_pos hsmall] at h
    cases h
    rfl
  · rw [if_neg hsmall] at h
    exact chunkLoop_indices cfg _ docId _ _ _ _ h

theorem mapIdx_reindex_pairs :
    ∀ (subs : List TextChunk) (k : Nat),
      subs.map TextChunk.chunk_index = List.range' k subs.length →
      (subs.mapIdx fun i c => { c with chunk_index := k + i }).map
          (fun c => (c.text, c.chunk_index))
        = subs.map (fun c => (c.text, c.chunk_index)) := by
  intro subs
  induction subs with
  | nil => intro k _; rfl
  | cons c rest ih =>
    intro k h
    simp only [List.map_cons, List.length_cons, List.range'_succ] at h
    rw [List.cons.injEq] at h
    rw [List.mapIdx_cons]
    simp only [List.map_cons]
    have hfun : (fun i (d : TextChunk) =>
          ({ d with chunk_index := k + (i + 1) } : TextChunk))
        = (fun i d => { d with chunk_index := (k + 1) + i }) := by
      funext i d
      congr 1
      omega
    rw [hfun, ih (k + 1) h.2]
    rw [h.1]
    simp

/-- Claim C6: for every input, document id and configuration,
`chunk_by_paragraphs` returns chunks with exactly the same texts and
`chunk_index` values as `chunk_by_words` (only the metadata differs):
`clean_text` removes all newlines, so the paragraph split yields a
single paragraph and the paragraph strategy degenerates to the
word-window strategy. -/
theorem claim_C6_paragraphs_degenerate (cfg : TextChunker)
    (text : List Char) (docId : Option Int) :
    (chunkByParagraphs cfg text docId).map
        (List.map fun c => (c.text, c.chunk_index))
      = (chunkByWords cfg text docId).map
          (List.map fun c => (c.text, c.chunk_index)) := by
  have hpar : splitParas (cleanText text) = [cleanText text] :=
    splitParas_no_newline _ (newline_not_mem_cleanText text)
  simp only [chunkByParagraphs]
  rw [hpar]
  have hcw : chunkByWords cfg (cleanText text) docId
      = chunkByWords cfg text docId := by
    simp only [chunkByWords]
    rw [cleanText_idem]
  by_cases hbig : cfg.chunk_size < ((splitWords (cleanText text)).length : Int)
  · rw [paraLoop, if_pos hbig]
    simp only [List.isEmpty_nil, if_true, List.nil_append]
    rw [hcw]
    cases hsub : chunkByWords cfg text docId with
    | none => rfl
    | some subs =>
      simp only [paraLoop, List.isEmpty_nil, if_true]
      simp only [Option.map_some', List.append_nil, List.nil_append]
      exact congrArg some (mapIdx_reindex_pairs subs 0
        (chunkByWords_indices cfg text docId subs hsub))
  · rw [paraLoop, if_neg hbig]
    have hsum : ((0 : Nat) : Int) + (((splitWords (cleanText text)).length : Nat) : Int)
        ≤ cfg.chunk_size := by push_cast; omega
    rw [if_pos hsum]
    rw [paraLoop]
    simp only [List.nil_append, List.isEmpty_cons, if_false, Bool.false_eq_true]
    simp only [chunkByWords]
    rw [if_pos (by omega)]
    rfl

/-! ### Claim C7: batch save with one duplicate -/

/-- Claim C7: for a batch of three documents of which exactly the second
matches an already-stored document by url or content hash (and the other
two match nothing, including each other), `save_documents_batch` reports
`saved = 3, duplicates = 0, errors = 0` — the existing-match save
returns the stored identifier and is counted as saved, the `duplicates`
counter is never incremented — and exactly two new rows are inserted. -/
theorem claim_C7_batch_dedup (σ : StoreState) (d1 d2 d3 : RawDoc) (r : DocRow)
    (hid : 0 < σ.nextId)
    (h1 : σ.rows.find? (docMatches d1) = none)
    (h2 : σ.rows.find? (docMatches d2) = some r) (hr : r.id ≠ 0)
    (h3 : σ.rows.find? (docMatches d3) = none)
    (h31 : docMatches d3 ⟨σ.nextId, d1.url, d1.content_hash⟩ = false) :
    (save_documents_batch σ [d1, d2, d3]).1 = ⟨3, 0, 0⟩ ∧
      (save_documents_batch σ [d1, d2, d3]).2.rows.length
        = σ.rows.length + 2 := by
  have hne1 : σ.nextId ≠ 0 := by omega
  have hs1 : save_document σ d1
      = (some σ.nextId,
          ⟨σ.nextId + 1, σ.rows ++ [⟨σ.nextId, d1.url, d1.content_hash⟩]⟩) := by
    simp [save_document, h1]
  have hs2 : save_document
      ⟨σ.nextId + 1, σ.rows ++ [⟨σ.nextId, d1.url, d1.content_hash⟩]⟩ d2
      = (some r.id,
          ⟨σ.nextId + 1, σ.rows ++ [⟨σ.nextId, d1.url, d1.content_hash⟩]⟩) := by
    simp only [save_document, List.find?_append, h2, Option.or_some]
  have hs3 : save_document
      ⟨σ.nextId + 1, σ.rows ++ [⟨σ.nextId, d1.url, d1.content_hash⟩]⟩ d3
      = (some (σ.nextId + 1),
          ⟨σ.nextId + 1 + 1, (σ.rows ++ [⟨σ.nextId, d1.url, d1.content_hash⟩])
            ++ [⟨σ.nextId + 1, d3.url, d3.content_hash⟩]⟩) := by
    simp only [save_document, List.find?_append, h3, Option.none_or]
    rw [List.find?_cons_of_neg _ (by simp [h31]), List.find?_nil]
  have hbatch : save_documents_batch σ [d1, d2, d3]
      = (⟨3, 0, 0⟩,
          ⟨σ.nextId + 1 + 1, (σ.rows ++ [⟨σ.nextId, d1.url, d1.content_hash⟩])
            ++ [⟨σ.nextId + 1, d3.url, d3.content_hash⟩]⟩) := by
    simp [save_documents_batch, List.foldl_cons, List.foldl_nil,
      hs1, hs2, hs3, truthy, hne1, hr]
  rw [hbatch]
  exact ⟨rfl, by simp⟩

/-- Claim C7, witness: one stored row matching the second document by
url; the other two documents are fresh. -/
theorem claim_C7_witness :
    0 < (5 : Nat) ∧
      ((⟨5, [⟨1, "u2", "h2"⟩]⟩ : StoreState)).rows.find?
          (docMatches ⟨"t1", "u1", "c1", "x1"⟩) = none ∧
      ((⟨5, [⟨1, "u2", "h2"⟩]⟩ : StoreState)).rows.find?
          (docMatches ⟨"t2", "u2", "c2", "x2"⟩) = some ⟨1, "u2", "h2"⟩ ∧
      (1 : Nat) ≠ 0 ∧
      ((⟨5, [⟨1, "u2", "h2"⟩]⟩ : StoreState)).rows.find?
          (docMatches ⟨"t3", "u3", "c3", "x3"⟩) = none ∧
      docMatches ⟨"t3", "u3", "c3", "x3"⟩ ⟨5, "u1", "x1"⟩ = false ∧
      ((save_documents_batch ⟨5, [⟨1, "u2", "h2"⟩]⟩
          [⟨"t1", "u1", "c1", "x1"⟩, ⟨"t2", "u2", "c2", "x2"⟩,
            ⟨"t3", "u3", "c3", "x3"⟩]).1 = ⟨3, 0, 0⟩ ∧
        (save_documents_batch ⟨5, [⟨1, "u2", "h2"⟩]⟩
          [⟨"t1", "u1", "c1", "x1"⟩, ⟨"t2", "u2", "c2", "x2"⟩,
            ⟨"t3", "u3", "c3", "x3"⟩]).2.rows.length
          = ((⟨5, [⟨1, "u2", "h2"⟩]⟩ : StoreState)).rows.length + 2) :=
  ⟨by decide, by decide, by decide, by decide, by decide, by decide,
    claim_C7_batch_dedup ⟨5, [⟨1, "u2", "h2"⟩]⟩ ⟨"t1", "u1", "c1", "x1"⟩
      ⟨"t2", "u2", "c2", "x2"⟩ ⟨"t3", "u3", "c3", "x3"⟩ ⟨1, "u2", "h2"⟩
      (by decide) (by decide) (by decide) (by decide) (by decide) (by decide)⟩

end Gesetze
